import Mathlib

/-!
A verification development for the terminal German-vocabulary trainer
(`terminal/game.py`).  The learning core — mastery store, streak update,
umlaut-lenient normalization, weighted sampler, multiple-choice builder,
and the quiz / speed session controllers — is embedded shallowly below.
Randomness (weighted draws, shuffles, user input, wall-clock checks) is
modelled by explicit input streams and permutation-valued shuffle
functions, so every possible run of the Python code corresponds to a
choice of these parameters.
-/

namespace DeutschLernen

/-- A vocabulary entry: German source text `de` and English target text `en`.
The optional hint/example/conjugation/opposite/context fields are only ever
displayed, never used by the core logic, so they are omitted here. -/
structure WordEntry where
  de : String
  en : String
  deriving Repr, DecidableEq, Inhabited

/-- The per-word record stored under `progress["words"][key]`:
`{"mastery": ..., "correct": ..., "wrong": ...}`.  `mastery` is an
unbounded Python int, hence modelled by `ℤ`. -/
structure MasteryRecord where
  mastery : ℤ
  correct : ℕ
  wrong : ℕ
  deriving Repr, DecidableEq, Inhabited

/-- The record `{"mastery": 0, "correct": 0, "wrong": 0}` that
`dict.setdefault` inserts for a word seen for the first time. -/
def freshRecord : MasteryRecord := ⟨0, 0, 0⟩

/-- The `last_played` field: either the empty string (never played) or an
ISO date, modelled as a day number (`date.isoformat` is injective, and the
empty string is not a date, so this is faithful to the string comparisons
in `update_streak`). -/
inductive LastPlayed where
  | empty : LastPlayed
  | day (d : ℤ) : LastPlayed
  deriving Repr, DecidableEq

/-- The progress document `{"xp", "streak", "last_played", "best_speed",
"words"}`.  The `words` dict is modelled as an association list with the
dict's insertion order; keys are the `"category:word"` strings. -/
structure Progress where
  xp : ℕ
  streak : ℕ
  lastPlayed : LastPlayed
  bestSpeed : ℕ
  words : List (String × MasteryRecord)
  deriving Repr, DecidableEq

/-- `get_word_key` from game.py: `f"{category}:{de_word}"`. -/
def get_word_key (category : String) (de_word : String) : String :=
  category ++ ":" ++ de_word

/-- Dict lookup on the association list modelling `progress["words"]`. -/
def lookupWord : List (String × MasteryRecord) → String → Option MasteryRecord
  | [], _ => none
  | (k, v) :: rest, key => if k = key then some v else lookupWord rest key

/-- Dict assignment: replace the value at an existing key, or append a new
binding at the end (Python dicts keep insertion order). -/
def setWord : List (String × MasteryRecord) → String → MasteryRecord → List (String × MasteryRecord)
  | [], key, v => [(key, v)]
  | (k, w) :: rest, key, v =>
      if k = key then (key, v) :: rest else (k, w) :: setWord rest key v

/-- `get_mastery` from game.py:
`progress["words"].get(key, {}).get("mastery", 0)`. -/
def get_mastery (p : Progress) (category : String) (de_word : String) : ℤ :=
  ((lookupWord p.words (get_word_key category de_word)).getD freshRecord).mastery

/-- The mutation `record_answer` applies to the (possibly fresh) entry:
on correct, `correct += 1` and `mastery = min(mastery + 1, 5)`;
on wrong, `wrong += 1` and `mastery = max(mastery - 1, 0)`. -/
def applyAnswer (e : MasteryRecord) (correct : Bool) : MasteryRecord :=
  if correct then
    { e with correct := e.correct + 1, mastery := min (e.mastery + 1) 5 }
  else
    { e with wrong := e.wrong + 1, mastery := max (e.mastery - 1) 0 }

/-- `record_answer` from game.py: `setdefault` the entry, then mutate it. -/
def record_answer (p : Progress) (category : String) (de_word : String) (correct : Bool) : Progress :=
  let key := get_word_key category de_word
  let entry := (lookupWord p.words key).getD freshRecord
  { p with words := setWord p.words key (applyAnswer entry correct) }

/-- A whole sequence of `record_answer` calls, each given as
(category, word, correct). -/
def recordAll (p : Progress) (calls : List (String × String × Bool)) : Progress :=
  calls.foldl (fun acc c => record_answer acc c.1 c.2.1 c.2.2) p

/-- `update_streak` from game.py, with `today` the current day number.
`last == today` returns unchanged; `last == yesterday` increments the
streak; the empty and the catch-all branches both reset the streak to 1;
every branch except the first sets `last_played` to today. -/
def update_streak (p : Progress) (today : ℤ) : Progress :=
  if p.lastPlayed = LastPlayed.day today then p
  else if p.lastPlayed = LastPlayed.day (today - 1) then
    { p with streak := p.streak + 1, lastPlayed := LastPlayed.day today }
  else if p.lastPlayed = LastPlayed.empty then
    { p with streak := 1, lastPlayed := LastPlayed.day today }
  else
    { p with streak := 1, lastPlayed := LastPlayed.day today }

/-- Python `str.lower` on code points, restricted to the range this
program meets: ASCII letters plus the German capitals Ü (220), Ö (214),
Ä (196) and capital sharp s ẞ (7838); every other code point is fixed. -/
def lowerNat (n : ℕ) : ℕ :=
  if 65 ≤ n ∧ n ≤ 90 then n + 32
  else if n = 220 then 252
  else if n = 214 then 246
  else if n = 196 then 228
  else if n = 7838 then 223
  else n

/-- `str.lower`, character by character. -/
def pyLower (c : Char) : Char := Char.ofNat (lowerNat c.toNat)

/-- The whitespace characters `str.strip` removes (the ASCII ones;
exotic Unicode space classes do not occur in this program's data). -/
def isPySpace (c : Char) : Bool :=
  c = ' ' || c = '\t' || c = '\n' || c = '\x0d' || c = '\x0b' || c = '\x0c'

/-- `str.strip()`: drop whitespace from both ends. -/
def pyStrip (l : List Char) : List Char :=
  (((l.dropWhile isPySpace).reverse.dropWhile isPySpace)).reverse

/-- `str.replace(pat, rep)` for a single-character pattern. -/
def replaceChar (pat : Char) (rep : List Char) : List Char → List Char
  | [] => []
  | c :: rest => (if c = pat then rep else [c]) ++ replaceChar pat rep rest

/-- The replacement chain of `normalize_german`, in source order:
ü→u, ö→o, ä→a, then Ü→u, Ö→o, Ä→a, then ß→ss. -/
def applyReplacements (l : List Char) : List Char :=
  replaceChar 'ß' ['s', 's']
    (replaceChar 'Ä' ['a']
      (replaceChar 'Ö' ['o']
        (replaceChar 'Ü' ['u']
          (replaceChar 'ä' ['a']
            (replaceChar 'ö' ['o']
              (replaceChar 'ü' ['u'] l))))))

/-- `normalize_german` on the character list: `text.lower().strip()`
followed by the umlaut replacements. -/
def normalizeChars (l : List Char) : List Char :=
  applyReplacements (pyStrip (l.map pyLower))

/-- `normalize_german` from game.py. -/
def normalize_german (s : String) : String := String.mk (normalizeChars s.data)

/-- The weighted-draw loop of `weighted_sample`: up to `fuel` attempts
(the code uses `n * 20`), each drawing an index from the stream `draws`
(reduced mod `len`, since `random.choices` over positive weights can
produce any index) and keeping it if unseen.  `acc` is the list of
chosen indices in draw order; the code's `chosen_indices` set always
holds exactly the elements of `acc`. -/
def drawLoop (len n : ℕ) (draws : ℕ → ℕ) : ℕ → ℕ → List ℕ → List ℕ
  | 0, _, acc => acc
  | fuel + 1, t, acc =>
      if acc.length < n then
        drawLoop len n draws fuel (t + 1)
          (if (draws t % len) ∈ acc then acc else acc ++ [draws t % len])
      else acc

/-- `weighted_sample` at the level of indices: cap `n` at `len`, run the
draw loop with `n * 20` attempts, and if it fell short, pad with a shuffle
of the unchosen indices, truncated to the shortfall. -/
def weightedSampleIdx (len n0 : ℕ) (draws : ℕ → ℕ) (shuffle : List ℕ → List ℕ) : List ℕ :=
  let n := min n0 len
  let chosen := drawLoop len n draws (n * 20) 0 []
  if chosen.length < n then
    let remaining := (List.range len).filter (fun i => decide (i ∉ chosen))
    chosen ++ (shuffle remaining).take (n - chosen.length)
  else chosen

/-- `weighted_sample` from game.py.  The mastery-derived weights only bias
the distribution of `random.choices`; since every weight is at least 1 the
support is all indices, so the abstract draw stream covers every possible
run.  The `random.shuffle` of the leftover words is modelled by a shuffle
on their indices. -/
def weighted_sample (words : List WordEntry) (n : ℕ) (draws : ℕ → ℕ)
    (shuffle : List ℕ → List ℕ) : List WordEntry :=
  if words = [] then []
  else (weightedSampleIdx words.length n draws shuffle).map (fun i => words.getD i default)

/-- The quiz pad loop `while len(choices) < 4 and wrong_pool:
choices.append(wrong_pool.pop())`, with the pool passed reversed so that
Python's `pop()` (from the end) becomes head-first recursion. -/
def padLoopRev : List String → List String → List String
  | choices, [] => choices
  | choices, x :: rest =>
      if choices.length < 4 then padLoopRev (choices ++ [x]) rest else choices

/-- The choice list built from an already-shuffled wrong pool:
`choices = [correct_answer] + wrong_pool[:3]`, then the pad loop (which
pops from the end of the still-whole pool), then the
`len(choices) < 2` fixup `list(set(choices + [correct_answer]))`. -/
def buildFixed (correctAnswer : String) (wrongPool : List String) : List String :=
  let choices := correctAnswer :: wrongPool.take 3
  let padded := padLoopRev choices wrongPool.reverse
  if padded.length < 2 then (padded ++ [correctAnswer]).dedup else padded

/-- The multiple-choice builder of `quiz_mode` (lines 479-501): filter the
candidate values down to those different from the correct answer, shuffle
(`σ₁`), build the choice list with the 3-slice, pad loop and tiny-category
fixup, and shuffle the result (`σ₂`). -/
def buildChoices (correctAnswer : String) (values : List String)
    (σ₁ σ₂ : List String → List String) : List String :=
  σ₂ (buildFixed correctAnswer (σ₁ (values.filter (fun v => decide (v ≠ correctAnswer)))))

/-- The answer-scoring block of `quiz_mode` (lines 533-545): on a correct
selection, `record_answer(..., True)` and `xp += 10`; otherwise
`record_answer(..., False)`; in both branches `save_progress` runs exactly
once.  Returns (new progress, whether correct, number of saves). -/
def scoreQuizAnswer (p : Progress) (category : String) (w : WordEntry)
    (selected correctAnswer : String) : Progress × Bool × ℕ :=
  if selected = correctAnswer then
    let p1 := record_answer p category w.de true
    ({ p1 with xp := p1.xp + 10 }, true, 1)
  else
    (record_answer p category w.de false, false, 1)

/-- The question loop of `quiz_mode`: question `qi` (1-based) prompts
EN→DE when `qi` is odd and DE→EN when even, builds the choice set from
the whole word list, reads the user's selection (always a valid index,
because `Prompt.ask` restricts input to `1..len(choices)`), and scores
it.  Returns (progress, score, saves). -/
def quizLoop (category : String) (words : List WordEntry)
    (σ : ℕ → List String → List String) (ans : ℕ → ℕ) :
    List WordEntry → ℕ → Progress → ℕ → ℕ → Progress × ℕ × ℕ
  | [], _, p, score, saves => (p, score, saves)
  | w :: rest, qi, p, score, saves =>
      let correctAnswer := if qi % 2 = 1 then w.de else w.en
      let pool := if qi % 2 = 1 then words.map (fun v => v.de) else words.map (fun v => v.en)
      let choices := buildChoices correctAnswer pool (σ (2 * qi)) (σ (2 * qi + 1))
      let selected := choices.getD (ans qi % choices.length) ""
      let r := scoreQuizAnswer p category w selected correctAnswer
      quizLoop category words σ ans rest (qi + 1) r.1
        (if r.2.1 then score + 1 else score) (saves + r.2.2)

/-- `quiz_mode` from game.py: fewer than 2 words declines immediately
(progress untouched, zero questions, zero saves); otherwise it samples
`min(10, len(words))` questions and runs the loop.  Returns
(progress, score, saves). -/
def quizMode (p : Progress) (category : String) (words : List WordEntry)
    (draws : ℕ → ℕ) (shuffleIdx : List ℕ → List ℕ)
    (σ : ℕ → List String → List String) (ans : ℕ → ℕ) : Progress × ℕ × ℕ :=
  if words.length < 2 then (p, 0, 0)
  else
    let qs := weighted_sample words (min 10 words.length) draws shuffleIdx
    quizLoop category words σ ans qs 1 p 0 0

/-- Python list indexing `l[i]` for `int` indices, negatives included:
valid exactly when `-len ≤ i < len`. -/
def pyGet (l : List String) (i : ℤ) : Option String :=
  if 0 < l.length ∧ -(l.length : ℤ) ≤ i ∧ i < (l.length : ℤ) then
    some (l.getD (i % (l.length : ℤ)).toNat "")
  else none

/-- The answer-scoring block of `speed_round`: `+5` XP on a correct
selection, `record_answer` in both branches. -/
def scoreSpeedAnswer (p : Progress) (category : String) (w : WordEntry)
    (selected correctAnswer : String) : Progress × Bool :=
  if selected = correctAnswer then
    let p1 := record_answer p category w.de true
    ({ p1 with xp := p1.xp + 5 }, true)
  else
    (record_answer p category w.de false, false)

/-- The non-deterministic inputs of one speed round: the three wall-clock
deadline checks of each iteration, the weighted word draw, the direction
coin flip, the two shuffles per iteration, and the raw answer (`none`
models an unparseable `int(answer)`). -/
structure SpeedInputs where
  timeUp0 : ℕ → Bool
  timeUp1 : ℕ → Bool
  timeUp2 : ℕ → Bool
  draw : ℕ → ℕ
  deDir : ℕ → Bool
  σ : ℕ → List String → List String
  ans : ℕ → Option ℤ

/-- The timed loop of `speed_round`.  `fuel` bounds the number of
iterations (in the real program the 60-second deadline does); each
iteration checks the deadline, counts the attempt, draws a word, builds
the choice set (note: no pad loop in speed mode), re-checks the deadline
before and after reading input, and scores.  Returns
(progress, score, total attempted). -/
def speedLoop (category : String) (words : List WordEntry) (inp : SpeedInputs) :
    ℕ → ℕ → Progress → ℕ → ℕ → Progress × ℕ × ℕ
  | 0, _, p, score, total => (p, score, total)
  | fuel + 1, t, p, score, total =>
      if inp.timeUp0 t then (p, score, total)
      else
        let total1 := total + 1
        let w := words.getD (inp.draw t % words.length) default
        let correctAnswer := if inp.deDir t then w.de else w.en
        let pool :=
          if correctAnswer = w.de then words.map (fun v => v.de)
          else words.map (fun v => v.en)
        let wrongPool := inp.σ (2 * t) (pool.filter (fun v => decide (v ≠ correctAnswer)))
        let choices := inp.σ (2 * t + 1) (correctAnswer :: wrongPool.take 3)
        if inp.timeUp1 t then (p, score, total1)
        else if inp.timeUp2 t then (p, score, total1)
        else
          let selected :=
            match inp.ans t with
            | none => ""
            | some k => (pyGet choices (k - 1)).getD ""
          let r := scoreSpeedAnswer p category w selected correctAnswer
          speedLoop category words inp fuel (t + 1) r.1
            (if r.2 then score + 1 else score) total1

/-- The best-score update at the end of `speed_round` (lines 792-795):
`if score > progress["best_speed"]: progress["best_speed"] = score`. -/
def speedFinish (p : Progress) (score : ℕ) : Progress :=
  if p.bestSpeed < score then { p with bestSpeed := score } else p

/-- `speed_round` from game.py: fewer than 2 words declines immediately;
otherwise run the timed loop and then the best-score update.  Returns
(progress, score, total attempted). -/
def speedRound (p : Progress) (category : String) (words : List WordEntry)
    (inp : SpeedInputs) (fuel : ℕ) : Progress × ℕ × ℕ :=
  if words.length < 2 then (p, 0, 0)
  else
    let r := speedLoop category words inp fuel 0 p 0 0
    (speedFinish r.1 r.2.1, r.2.1, r.2.2)

/-- `category_completion` from game.py: `0.0` for an empty list, else the
sum `sum(1 for w in words if get_mastery(...) >= 3)` divided by the word
count; Python's float division is modelled exactly in `ℚ`. -/
def category_completion (p : Progress) (category : String) (words : List WordEntry) : ℚ :=
  if words = [] then 0
  else
    ((words.map (fun w => if 3 ≤ get_mastery p category w.de then (1 : ℕ) else 0)).sum : ℚ) /
      (words.length : ℚ)

/-- `words_learned_count` from game.py: the same sum-of-ones over every
stored record with `mastery >= 3`. -/
def words_learned_count (p : Progress) : ℕ :=
  (p.words.map (fun kv => if 3 ≤ kv.2.mastery then (1 : ℕ) else 0)).sum

/-- Every stored mastery value lies in the interval `[0, 5]`. -/
def masteryInv (p : Progress) : Prop :=
  ∀ kv ∈ p.words, 0 ≤ kv.2.mastery ∧ kv.2.mastery ≤ 5

/-- The first character, if any, is not whitespace. -/
def noSpaceHead (l : List Char) : Prop :=
  ∀ c ∈ l.head?, isPySpace c = false

/-- The final character, if any, is not whitespace. -/
def noSpaceLast (l : List Char) : Prop :=
  ∀ c ∈ l.getLast?, isPySpace c = false

/-! ### Mastery store lemmas -/

theorem lookup_setWord_self (ws : List (String × MasteryRecord)) (key : String) (v : MasteryRecord) :
    lookupWord (setWord ws key v) key = some v := by
  induction ws with
  | nil => simp [setWord, lookupWord]
  | cons kv rest ih =>
      rcases kv with ⟨k, w⟩
      by_cases h : k = key
      · simp [setWord, h, lookupWord]
      · simp [setWord, h, lookupWord, ih]

theorem mem_setWord {ws : List (String × MasteryRecord)} {key : String} {v : MasteryRecord}
    {kv : String × MasteryRecord} (h : kv ∈ setWord ws key v) : kv = (key, v) ∨ kv ∈ ws := by
  induction ws with
  | nil => simpa [setWord] using h
  | cons kw rest ih =>
      rcases kw with ⟨k, w⟩
      by_cases hk : k = key
      · simp only [setWord, hk, if_true, List.mem_cons] at h
        rcases h with h | h
        · exact Or.inl h
        · exact Or.inr (List.mem_cons_of_mem _ h)
      · simp only [setWord, hk, if_false, List.mem_cons] at h
        rcases h with h | h
        · exact Or.inr (by simp [h])
        · rcases ih h with h' | h'
          · exact Or.inl h'
          · exact Or.inr (List.mem_cons_of_mem _ h')

theorem mem_of_lookup_eq_some {ws : List (String × MasteryRecord)} {key : String}
    {v : MasteryRecord} (h : lookupWord ws key = some v) : (key, v) ∈ ws := by
  induction ws with
  | nil => simp [lookupWord] at h
  | cons kw rest ih =>
      rcases kw with ⟨k, w⟩
      by_cases hk : k = key
      · simp only [lookupWord, hk, if_true, Option.some.injEq] at h
        simp [← hk, ← h]
      · simp only [lookupWord, hk, if_false] at h
        exact List.mem_cons_of_mem _ (ih h)

theorem lookup_record_answer (p : Progress) (category de : String) (b : Bool) :
    lookupWord (record_answer p category de b).words (get_word_key category de)
      = some (applyAnswer ((lookupWord p.words (get_word_key category de)).getD freshRecord) b) := by
  unfold record_answer
  exact lookup_setWord_self _ _ _

theorem record_answer_masteryInv {p : Progress} (hp : masteryInv p)
    (category de : String) (b : Bool) : masteryInv (record_answer p category de b) := by
  intro kv hkv
  unfold record_answer at hkv
  rcases mem_setWord hkv with h | h
  · subst h
    have he : 0 ≤ ((lookupWord p.words (get_word_key category de)).getD freshRecord).mastery ∧
        ((lookupWord p.words (get_word_key category de)).getD freshRecord).mastery ≤ 5 := by
      rcases hl : lookupWord p.words (get_word_key category de) with _ | v
      · simp [freshRecord]
      · simpa using hp _ (mem_of_lookup_eq_some hl)
    rcases b with _ | _ <;> simp only [applyAnswer] <;> simp <;> omega
  · exact hp _ h

theorem recordAll_masteryInv {p : Progress} (hp : masteryInv p)
    (calls : List (String × String × Bool)) : masteryInv (recordAll p calls) := by
  induction calls generalizing p with
  | nil => exact hp
  | cons c rest ih =>
      exact ih (record_answer_masteryInv hp c.1 c.2.1 c.2.2)

/-- Claim C1: `record_answer` with `correct = true` sets the word's mastery
to `min(m + 1, 5)` and increments its correct counter; with
`correct = false` it sets the mastery to `max(m - 1, 0)` and increments
the wrong counter, creating the record (mastery 0, zero counters) first
when absent; consequently, if every stored mastery lies in `[0, 5]`, it
still does after any sequence of `record_answer` calls. -/
theorem record_answer_spec (p : Progress) (category de : String) :
    get_mastery (record_answer p category de true) category de
        = min (get_mastery p category de + 1) 5 ∧
    get_mastery (record_answer p category de false) category de
        = max (get_mastery p category de - 1) 0 ∧
    ((lookupWord (record_answer p category de true).words (get_word_key category de)).getD
          freshRecord).correct
        = ((lookupWord p.words (get_word_key category de)).getD freshRecord).correct + 1 ∧
    ((lookupWord (record_answer p category de true).words (get_word_key category de)).getD
          freshRecord).wrong
        = ((lookupWord p.words (get_word_key category de)).getD freshRecord).wrong ∧
    ((lookupWord (record_answer p category de false).words (get_word_key category de)).getD
          freshRecord).wrong
        = ((lookupWord p.words (get_word_key category de)).getD freshRecord).wrong + 1 ∧
    ((lookupWord (record_answer p category de false).words (get_word_key category de)).getD
          freshRecord).correct
        = ((lookupWord p.words (get_word_key category de)).getD freshRecord).correct ∧
    (masteryInv p → ∀ calls : List (String × String × Bool), masteryInv (recordAll p calls)) := by
  refine ⟨?_, ?_, ?_, ?_, ?_, ?_, fun hp calls => recordAll_masteryInv hp calls⟩ <;>
    simp [get_mastery, lookup_record_answer, applyAnswer]

/-- Witness for C1 at a concrete store: one word at mastery 5 stays at 5
after a correct answer, drops to 4 after a wrong answer, and a fresh word
enters at mastery `min(0 + 1, 5) = 1`; the `[0, 5]` invariant survives a
concrete call sequence. -/
theorem record_answer_spec_witness :
    get_mastery (record_answer ⟨0, 0, LastPlayed.empty, 0, [("verbs:gehen", ⟨5, 7, 2⟩)]⟩
        "verbs" "gehen" true) "verbs" "gehen" = 5 ∧
    masteryInv (recordAll ⟨0, 0, LastPlayed.empty, 0, [("verbs:gehen", ⟨5, 7, 2⟩)]⟩
        [("verbs", "gehen", false), ("nouns", "Hund", true)]) := by
  constructor
  · have h := (record_answer_spec ⟨0, 0, LastPlayed.empty, 0, [("verbs:gehen", ⟨5, 7, 2⟩)]⟩
        "verbs" "gehen").1
    rw [h]
    decide
  · have h := (record_answer_spec ⟨0, 0, LastPlayed.empty, 0, [("verbs:gehen", ⟨5, 7, 2⟩)]⟩
        "verbs" "gehen").2.2.2.2.2.2
    refine h ?_ _
    intro kv hkv
    simp only [List.mem_singleton] at hkv
    subst hkv
    decide

/-! ### Normalization lemmas -/

theorem lowerNat_valid {n : ℕ} (h : n.isValidChar) : (lowerNat n).isValidChar := by
  have h' : n < 55296 ∨ (57343 < n ∧ n < 1114112) := h
  show lowerNat n < 55296 ∨ (57343 < lowerNat n ∧ lowerNat n < 1114112)
  unfold lowerNat
  split_ifs <;> omega

theorem toNat_pyLower (c : Char) : (pyLower c).toNat = lowerNat c.toNat := by
  have hv : (lowerNat c.toNat).isValidChar := lowerNat_valid c.valid
  unfold pyLower Char.ofNat
  rw [dif_pos hv]
  rfl

theorem char_eq_of_toNat_eq {a b : Char} (h : a.toNat = b.toNat) : a = b :=
  Char.eq_of_val_eq (UInt32.ext h)

theorem lowerNat_idem (n : ℕ) : lowerNat (lowerNat n) = lowerNat n := by
  unfold lowerNat
  split_ifs <;> omega

theorem pyLower_idem (c : Char) : pyLower (pyLower c) = pyLower c := by
  apply char_eq_of_toNat_eq
  rw [toNat_pyLower, toNat_pyLower, lowerNat_idem]

theorem map_pyLower_eq_self {l : List Char} (h : ∀ x ∈ l, pyLower x = x) :
    l.map pyLower = l := by
  induction l with
  | nil => rfl
  | cons a rest ih =>
      simp only [List.map_cons, h a (List.mem_cons_self a rest),
        ih (fun x hx => h x (List.mem_cons_of_mem a hx))]

theorem noSpaceHead_dropWhile (l : List Char) : noSpaceHead (l.dropWhile isPySpace) := by
  induction l with
  | nil => intro c hc; simp [List.dropWhile] at hc
  | cons a rest ih =>
      by_cases h : isPySpace a
      · simpa [List.dropWhile, h] using ih
      · intro c hc
        simp only [List.dropWhile, h, Bool.false_eq_true, if_false, List.head?_cons,
          Option.mem_def, Option.some.injEq] at hc
        rw [← hc]
        simpa using h

theorem dropWhile_eq_self_of (l : List Char) (h : noSpaceHead l) :
    l.dropWhile isPySpace = l := by
  cases l with
  | nil => rfl
  | cons a rest =>
      have ha : isPySpace a = false := h a (by simp)
      simp [List.dropWhile, ha]

theorem noSpaceHead_reverse_iff (l : List Char) : noSpaceHead l.reverse ↔ noSpaceLast l := by
  unfold noSpaceHead noSpaceLast
  rw [List.head?_reverse]

theorem pyStrip_eq_self {l : List Char} (h1 : noSpaceHead l) (h2 : noSpaceLast l) :
    pyStrip l = l := by
  unfold pyStrip
  rw [dropWhile_eq_self_of l h1,
    dropWhile_eq_self_of l.reverse ((noSpaceHead_reverse_iff l).mpr h2),
    List.reverse_reverse]

theorem getLast?_dropWhile_of_ne_nil {l : List Char} (h : l.dropWhile isPySpace ≠ []) :
    (l.dropWhile isPySpace).getLast? = l.getLast? := by
  induction l with
  | nil => simp [List.dropWhile] at h
  | cons a rest ih =>
      by_cases ha : isPySpace a
      · have hd : (a :: rest).dropWhile isPySpace = rest.dropWhile isPySpace := by
          simp [List.dropWhile, ha]
        rw [hd] at h ⊢
        have hrest : rest ≠ [] := by
          intro hn; rw [hn] at h; simp [List.dropWhile] at h
        rw [ih h]
        have : a :: rest = [a] ++ rest := rfl
        rw [this, List.getLast?_append_of_ne_nil _ hrest]
      · simp [List.dropWhile, ha]

theorem noSpaceHead_pyStrip (l : List Char) : noSpaceHead (pyStrip l) := by
  unfold pyStrip
  intro c hc
  rw [List.head?_reverse] at hc
  by_cases hY : (l.dropWhile isPySpace).reverse.dropWhile isPySpace = []
  · rw [hY] at hc; simp at hc
  · rw [getLast?_dropWhile_of_ne_nil hY, List.getLast?_reverse] at hc
    exact noSpaceHead_dropWhile l c hc

theorem noSpaceLast_pyStrip (l : List Char) : noSpaceLast (pyStrip l) := by
  unfold pyStrip
  intro c hc
  rw [List.getLast?_reverse] at hc
  exact noSpaceHead_dropWhile (l.dropWhile isPySpace).reverse c hc

theorem mem_pyStrip {x : Char} {l : List Char} (h : x ∈ pyStrip l) : x ∈ l := by
  unfold pyStrip at h
  rw [List.mem_reverse] at h
  have h2 := (List.dropWhile_sublist isPySpace).subset h
  rw [List.mem_reverse] at h2
  exact (List.dropWhile_sublist isPySpace).subset h2

theorem replaceChar_append (pat : Char) (rep : List Char) (l₁ l₂ : List Char) :
    replaceChar pat rep (l₁ ++ l₂) = replaceChar pat rep l₁ ++ replaceChar pat rep l₂ := by
  induction l₁ with
  | nil => rfl
  | cons a rest ih => simp [replaceChar, ih]

theorem mem_replaceChar {x pat : Char} {rep l : List Char}
    (h : x ∈ replaceChar pat rep l) : x ∈ rep ∨ (x ∈ l ∧ x ≠ pat) := by
  induction l with
  | nil => simp [replaceChar] at h
  | cons a rest ih =>
      simp only [replaceChar, List.mem_append] at h
      rcases h with h | h
      · by_cases ha : a = pat
        · rw [if_pos ha] at h
          exact Or.inl h
        · rw [if_neg ha] at h
          simp only [List.mem_singleton] at h
          subst h
          exact Or.inr ⟨List.mem_cons_self _ _, ha⟩
      · rcases ih h with h' | ⟨h1, h2⟩
        · exact Or.inl h'
        · exact Or.inr ⟨List.mem_cons_of_mem _ h1, h2⟩

theorem replaceChar_eq_self {pat : Char} {rep l : List Char} (h : pat ∉ l) :
    replaceChar pat rep l = l := by
  induction l with
  | nil => rfl
  | cons a rest ih =>
      have ha : a ≠ pat := by intro hn; rw [hn] at h; exact h (List.mem_cons_self _ _)
      simp only [replaceChar, if_neg ha]
      rw [ih (fun hn => h (List.mem_cons_of_mem _ hn))]
      rfl

theorem noSpaceHead_replaceChar {pat : Char} {rep : List Char} (hrep : noSpaceHead rep)
    (hne : rep ≠ []) {l : List Char} (hl : noSpaceHead l) :
    noSpaceHead (replaceChar pat rep l) := by
  cases l with
  | nil => intro c hc; simp [replaceChar] at hc
  | cons a rest =>
      show noSpaceHead ((if a = pat then rep else [a]) ++ replaceChar pat rep rest)
      by_cases ha : a = pat
      · rw [if_pos ha]
        intro c hc
        rw [List.head?_append_of_ne_nil rep hne] at hc
        exact hrep c hc
      · rw [if_neg ha]
        intro c hc
        simp only [List.singleton_append, List.head?_cons, Option.mem_def,
          Option.some.injEq] at hc
        rw [← hc]
        exact hl a (by simp)

theorem noSpaceLast_replaceChar {pat : Char} {rep : List Char} (hrep : noSpaceLast rep)
    (hne : rep ≠ []) {l : List Char} (hl : noSpaceLast l) :
    noSpaceLast (replaceChar pat rep l) := by
  rcases List.eq_nil_or_concat l with h | ⟨L, b, h⟩
  · subst h; intro c hc; simp [replaceChar] at hc
  · subst h
    rw [List.concat_eq_append, replaceChar_append]
    have hrb : replaceChar pat rep [b] = (if b = pat then rep else [b]) := by
      simp [replaceChar]
    rw [hrb]
    by_cases hb : b = pat
    · rw [if_pos hb]
      intro c hc
      rw [List.getLast?_append_of_ne_nil _ hne] at hc
      exact hrep c hc
    · rw [if_neg hb]
      intro c hc
      rw [List.getLast?_append_of_ne_nil _ (by simp)] at hc
      simp only [List.getLast?_singleton, Option.mem_def, Option.some.injEq] at hc
      rw [← hc]
      exact hl b (by simp [List.concat_eq_append, List.getLast?_concat])

theorem noSpaceHead_applyReplacements {l : List Char} (h : noSpaceHead l) :
    noSpaceHead (applyReplacements l) := by
  unfold applyReplacements
  repeat
    apply noSpaceHead_replaceChar (by intro c hc; simp at hc; subst hc; rfl) (by simp)
  exact h

theorem noSpaceLast_applyReplacements {l : List Char} (h : noSpaceLast l) :
    noSpaceLast (applyReplacements l) := by
  unfold applyReplacements
  repeat
    apply noSpaceLast_replaceChar (by intro c hc; simp at hc; subst hc; rfl) (by simp)
  exact h

theorem mem_applyReplacements {x : Char} {l : List Char} (h : x ∈ applyReplacements l) :
    (x = 'u' ∨ x = 'o' ∨ x = 'a' ∨ x = 's') ∨
      (x ∈ l ∧ x ∉ (['ü', 'ö', 'ä', 'Ü', 'Ö', 'Ä', 'ß'] : List Char)) := by
  unfold applyReplacements at h
  rcases mem_replaceChar h with h | ⟨h, hss⟩
  · left; right; right; right; simpa using h
  rcases mem_replaceChar h with h | ⟨h, hA2⟩
  · left; right; right; left; simpa using h
  rcases mem_replaceChar h with h | ⟨h, hO2⟩
  · left; right; left; simpa using h
  rcases mem_replaceChar h with h | ⟨h, hU2⟩
  · left; left; simpa using h
  rcases mem_replaceChar h with h | ⟨h, ha1⟩
  · left; right; right; left; simpa using h
  rcases mem_replaceChar h with h | ⟨h, ho1⟩
  · left; right; left; simpa using h
  rcases mem_replaceChar h with h | ⟨h, hu1⟩
  · left; left; simpa using h
  right
  refine ⟨h, ?_⟩
  simp only [List.mem_cons, List.not_mem_nil, or_false]
  push_neg
  exact ⟨hu1, ho1, ha1, hU2, hO2, hA2, hss⟩

theorem applyReplacements_eq_self {l : List Char} (h1 : 'ü' ∉ l) (h2 : 'ö' ∉ l)
    (h3 : 'ä' ∉ l) (h4 : 'Ü' ∉ l) (h5 : 'Ö' ∉ l) (h6 : 'Ä' ∉ l) (h7 : 'ß' ∉ l) :
    applyReplacements l = l := by
  unfold applyReplacements
  rw [replaceChar_eq_self h1, replaceChar_eq_self h2, replaceChar_eq_self h3,
    replaceChar_eq_self h4, replaceChar_eq_self h5, replaceChar_eq_self h6,
    replaceChar_eq_self h7]

theorem normalizeChars_idem (l : List Char) :
    normalizeChars (normalizeChars l) = normalizeChars l := by
  have hfix : ∀ x ∈ normalizeChars l, pyLower x = x := by
    intro x hx
    rcases mem_applyReplacements hx with h | ⟨h, _⟩
    · rcases h with rfl | rfl | rfl | rfl <;> rfl
    · rcases List.mem_map.mp (mem_pyStrip h) with ⟨c, _, rfl⟩
      exact pyLower_idem c
  have hpat : ∀ q ∈ (['ü', 'ö', 'ä', 'Ü', 'Ö', 'Ä', 'ß'] : List Char),
      q ∉ normalizeChars l := by
    intro q hq hmem
    rcases mem_applyReplacements hmem with h | ⟨_, hn⟩
    · have hq' : q = 'ü' ∨ q = 'ö' ∨ q = 'ä' ∨ q = 'Ü' ∨ q = 'Ö' ∨ q = 'Ä' ∨ q = 'ß' := by
        simpa using hq
      rcases hq' with rfl | rfl | rfl | rfl | rfl | rfl | rfl <;>
        rcases h with h | h | h | h <;> exact absurd h (by decide)
    · exact hn hq
  have hh : noSpaceHead (normalizeChars l) :=
    noSpaceHead_applyReplacements (noSpaceHead_pyStrip _)
  have hlast : noSpaceLast (normalizeChars l) :=
    noSpaceLast_applyReplacements (noSpaceLast_pyStrip _)
  show applyReplacements (pyStrip ((normalizeChars l).map pyLower)) = normalizeChars l
  rw [map_pyLower_eq_self hfix, pyStrip_eq_self hh hlast,
    applyReplacements_eq_self (hpat _ (by simp)) (hpat _ (by simp)) (hpat _ (by simp))
      (hpat _ (by simp)) (hpat _ (by simp)) (hpat _ (by simp)) (hpat _ (by simp))]

/-- Claim C9: `normalize_german` is idempotent — normalizing an already
normalized string changes nothing, so comparing two normalized strings
never changes the match verdict. -/
theorem normalize_german_idempotent (s : String) :
    normalize_german (normalize_german s) = normalize_german s :=
  congrArg String.mk (normalizeChars_idem s.data)

/-- Counterexample to claim C3's first conjunct: the code lowercases
before substituting, so `normalize_german "Müller"` and
`normalize_german "MULLER"` are both `"muller"` — equal, where the claim
asserts they differ. -/
theorem normalize_muller_counterexample :
    normalize_german "Müller" = normalize_german "MULLER" := by decide

/-- Claim C3 as amended: lowercasing, trimming and the fixed substitution
set apply, so "Müller" and "MULLER" normalize equal, while the
two-letter expansions "Mueller"/"fuer" do not match and the bare-letter
form "fur" does. -/
theorem normalize_german_spec :
    normalize_german "Müller" = normalize_german "MULLER" ∧
    normalize_german "Müller" ≠ normalize_german "Mueller" ∧
    normalize_german "für" ≠ normalize_german "fuer" ∧
    normalize_german "für" = normalize_german "fur" ∧
    normalize_german "  GROẞE Straße " = "grosse strasse" := by
  exact ⟨by decide, by decide, by decide, by decide, by decide⟩

/-! ### Weighted sampler -/

theorem drawLoop_inv (len n : ℕ) (draws : ℕ → ℕ) (hlen : 0 < len) :
    ∀ (fuel t : ℕ) (acc : List ℕ), acc.Nodup → (∀ i ∈ acc, i < len) → acc.length ≤ n →
      (drawLoop len n draws fuel t acc).Nodup ∧
        (∀ i ∈ drawLoop len n draws fuel t acc, i < len) ∧
        (drawLoop len n draws fuel t acc).length ≤ n := by
  intro fuel
  induction fuel with
  | zero =>
      intro t acc h1 h2 h3
      exact ⟨h1, h2, h3⟩
  | succ fuel ih =>
      intro t acc h1 h2 h3
      simp only [drawLoop]
      by_cases hlt : acc.length < n
      · rw [if_pos hlt]
        by_cases hmem : (draws t % len) ∈ acc
        · rw [if_pos hmem]
          exact ih (t + 1) acc h1 h2 h3
        · rw [if_neg hmem]
          refine ih (t + 1) (acc ++ [draws t % len]) ?_ ?_ ?_
          · rw [List.nodup_append]
            refine ⟨h1, List.nodup_singleton _, ?_⟩
            intro a ha hb
            simp only [List.mem_singleton] at hb
            subst hb
            exact hmem ha
          · intro i hi
            rcases List.mem_append.mp hi with hi | hi
            · exact h2 i hi
            · simp only [List.mem_singleton] at hi
              subst hi
              exact Nat.mod_lt _ hlen
          · rw [List.length_append, List.length_singleton]
            omega
      · rw [if_neg hlt]
        exact ⟨h1, h2, h3⟩

theorem pad_fill_spec (len n : ℕ) (shuffle : List ℕ → List ℕ)
    (hσ : ∀ l : List ℕ, (shuffle l).Perm l) (hnle : n ≤ len) (chosen : List ℕ)
    (hnd : chosen.Nodup) (hbd : ∀ i ∈ chosen, i < len) (hcle : chosen.length ≤ n) :
    (chosen ++ (shuffle ((List.range len).filter (fun i => decide (i ∉ chosen)))).take
        (n - chosen.length)).Nodup ∧
      (chosen ++ (shuffle ((List.range len).filter (fun i => decide (i ∉ chosen)))).take
          (n - chosen.length)).length = n ∧
      ∀ i ∈ chosen ++ (shuffle ((List.range len).filter (fun i => decide (i ∉ chosen)))).take
          (n - chosen.length), i < len := by
  have hmem_rem : ∀ i, i ∈ (List.range len).filter (fun i => decide (i ∉ chosen)) ↔
      i < len ∧ i ∉ chosen := by
    intro i
    rw [List.mem_filter, List.mem_range, decide_eq_true_eq]
  have hnd_rem : ((List.range len).filter (fun i => decide (i ∉ chosen))).Nodup :=
    (List.nodup_range len).filter _
  have hlen_rem : len ≤ ((List.range len).filter (fun i => decide (i ∉ chosen))).length
      + chosen.length := by
    have hsplit : (List.range len).length
        = ((List.range len).filter (fun i => decide (i ∉ chosen))).length +
            ((List.range len).filter (fun i => ! decide (i ∉ chosen))).length :=
      List.length_eq_length_filter_add _
    have hin : ((List.range len).filter
        (fun i => ! decide (i ∉ chosen))).length ≤ chosen.length := by
      refine List.Subperm.length_le (List.Nodup.subperm ?_ ?_)
      · exact (List.nodup_range len).filter _
      · intro a ha
        rw [List.mem_filter] at ha
        have := ha.2
        simp only [Bool.not_eq_true', decide_eq_false_iff_not, not_not] at this
        exact this
    rw [List.length_range] at hsplit
    omega
  have hshuf_len : (shuffle ((List.range len).filter (fun i => decide (i ∉ chosen)))).length
      = ((List.range len).filter (fun i => decide (i ∉ chosen))).length :=
    (hσ _).length_eq
  have htake_len : ((shuffle ((List.range len).filter (fun i => decide (i ∉ chosen)))).take
      (n - chosen.length)).length = n - chosen.length := by
    rw [List.length_take, hshuf_len]
    omega
  have htake_mem : ∀ i ∈ (shuffle ((List.range len).filter
        (fun i => decide (i ∉ chosen)))).take (n - chosen.length),
      i < len ∧ i ∉ chosen := by
    intro i hi
    exact (hmem_rem i).mp (((hσ _).mem_iff).mp (List.mem_of_mem_take hi))
  refine ⟨?_, ?_, ?_⟩
  · rw [List.nodup_append]
    refine ⟨hnd, ?_, ?_⟩
    · exact ((hσ _).nodup_iff.mpr hnd_rem).sublist (List.take_sublist _ _)
    · intro a ha hb
      exact (htake_mem a hb).2 ha
  · rw [List.length_append, htake_len]
    omega
  · intro i hi
    rcases List.mem_append.mp hi with hi | hi
    · exact hbd i hi
    · exact (htake_mem i hi).1

theorem weightedSampleIdx_spec (len n0 : ℕ) (draws : ℕ → ℕ) (shuffle : List ℕ → List ℕ)
    (hlen : 0 < len) (hσ : ∀ l : List ℕ, (shuffle l).Perm l) :
    (weightedSampleIdx len n0 draws shuffle).Nodup ∧
      (weightedSampleIdx len n0 draws shuffle).length = min n0 len ∧
      ∀ i ∈ weightedSampleIdx len n0 draws shuffle, i < len := by
  obtain ⟨hnd, hbd, hle⟩ :=
    drawLoop_inv len (min n0 len) draws hlen (min n0 len * 20) 0 [] (by simp) (by simp) (by simp)
  have hunf : weightedSampleIdx len n0 draws shuffle
      = if (drawLoop len (min n0 len) draws (min n0 len * 20) 0 []).length < min n0 len
        then drawLoop len (min n0 len) draws (min n0 len * 20) 0 [] ++
          (shuffle ((List.range len).filter
            (fun i => decide (i ∉ drawLoop len (min n0 len) draws (min n0 len * 20) 0 [])))).take
              (min n0 len - (drawLoop len (min n0 len) draws (min n0 len * 20) 0 []).length)
        else drawLoop len (min n0 len) draws (min n0 len * 20) 0 [] := rfl
  rw [hunf]
  by_cases hc : (drawLoop len (min n0 len) draws (min n0 len * 20) 0 []).length < min n0 len
  · rw [if_pos hc]
    exact pad_fill_spec len (min n0 len) shuffle hσ (min_le_right _ _) _ hnd hbd (le_of_lt hc)
  · rw [if_neg hc]
    exact ⟨hnd, le_antisymm hle (not_lt.mp hc), hbd⟩

/-- Claim C2: for every non-empty word list, every `n`, every draw stream
and every shuffle, `weighted_sample` returns exactly `min(n, len(words))`
entries, pairwise distinct by index — the `n * 20` attempt cap plus the
shuffle pad always yield a full, duplicate-free result. -/
theorem weighted_sample_spec (words : List WordEntry) (n : ℕ) (draws : ℕ → ℕ)
    (shuffle : List ℕ → List ℕ) (hw : words ≠ [])
    (hσ : ∀ l : List ℕ, (shuffle l).Perm l) :
    (weightedSampleIdx words.length n draws shuffle).Nodup ∧
      (weightedSampleIdx words.length n draws shuffle).length = min n words.length ∧
      (∀ i ∈ weightedSampleIdx words.length n draws shuffle, i < words.length) ∧
      weighted_sample words n draws shuffle
        = (weightedSampleIdx words.length n draws shuffle).map
            (fun i => words.getD i default) ∧
      (weighted_sample words n draws shuffle).length = min n words.length := by
  have hlen : 0 < words.length := List.length_pos.mpr hw
  obtain ⟨h1, h2, h3⟩ := weightedSampleIdx_spec words.length n draws shuffle hlen hσ
  have hws : weighted_sample words n draws shuffle
      = (weightedSampleIdx words.length n draws shuffle).map
          (fun i => words.getD i default) := by
    unfold weighted_sample
    rw [if_neg hw]
  exact ⟨h1, h2, h3, hws, by rw [hws, List.length_map, h2]⟩

/-- Witness for C2: five words all at mastery 0, `n = 5`, a constant draw
stream (which forces the cap-and-pad path) still yields all five indices
exactly once. -/
theorem weighted_sample_spec_witness :
    (weightedSampleIdx 5 5 (fun _ => 0) id).Nodup ∧
      (weightedSampleIdx 5 5 (fun _ => 0) id).length = 5 ∧
      (weighted_sample [⟨"eins", "one"⟩, ⟨"zwei", "two"⟩, ⟨"drei", "three"⟩,
          ⟨"vier", "four"⟩, ⟨"fünf", "five"⟩] 5 (fun _ => 0) id).length = 5 := by
  have h := weighted_sample_spec [⟨"eins", "one"⟩, ⟨"zwei", "two"⟩, ⟨"drei", "three"⟩,
      ⟨"vier", "four"⟩, ⟨"fünf", "five"⟩] 5 (fun _ => 0) id
    (by decide) (fun l => List.Perm.refl l)
  exact ⟨h.1, h.2.1, h.2.2.2.2⟩

/-! ### Streak update -/

/-- Claim C5: `update_streak` increments the streak by exactly 1 when the
stored date is yesterday, resets it to 1 when the stored date is empty or
at least two days old, leaves everything unchanged when the stored date is
today, and in every other case stamps the stored date with today. -/
theorem update_streak_spec (p : Progress) (today : ℤ) :
    (p.lastPlayed = LastPlayed.day (today - 1) →
      update_streak p today
        = { p with streak := p.streak + 1, lastPlayed := LastPlayed.day today }) ∧
    (p.lastPlayed = LastPlayed.empty →
      update_streak p today = { p with streak := 1, lastPlayed := LastPlayed.day today }) ∧
    (∀ d : ℤ, p.lastPlayed = LastPlayed.day d → d ≤ today - 2 →
      update_streak p today = { p with streak := 1, lastPlayed := LastPlayed.day today }) ∧
    (p.lastPlayed = LastPlayed.day today → update_streak p today = p) ∧
    (p.lastPlayed ≠ LastPlayed.day today →
      (update_streak p today).lastPlayed = LastPlayed.day today) := by
  refine ⟨?_, ?_, ?_, ?_, ?_⟩
  · intro h
    have hne : p.lastPlayed ≠ LastPlayed.day today := by
      rw [h]; intro hc; simp only [LastPlayed.day.injEq] at hc; omega
    simp [update_streak, hne, h]
  · intro h
    simp [update_streak, h]
  · intro d hd hle
    have h1 : p.lastPlayed ≠ LastPlayed.day today := by
      rw [hd]; intro hc; simp only [LastPlayed.day.injEq] at hc; omega
    have h2 : p.lastPlayed ≠ LastPlayed.day (today - 1) := by
      rw [hd]; intro hc; simp only [LastPlayed.day.injEq] at hc; omega
    have h3 : p.lastPlayed ≠ LastPlayed.empty := by rw [hd]; intro hc; cases hc
    simp [update_streak, h1, h2, h3]
  · intro h
    simp [update_streak, h]
  · intro h
    by_cases h2 : p.lastPlayed = LastPlayed.day (today - 1) <;>
      by_cases h3 : p.lastPlayed = LastPlayed.empty <;>
        simp [update_streak, h, h2, h3]

/-- Witness for C5: playing on day 10 after day 9 takes a 3-day streak to
4; after day 7 (a 3-day gap) it resets to 1; on day 10 itself nothing
changes. -/
theorem update_streak_spec_witness :
    update_streak ⟨0, 3, LastPlayed.day 9, 0, []⟩ 10 = ⟨0, 4, LastPlayed.day 10, 0, []⟩ ∧
    update_streak ⟨0, 3, LastPlayed.day 7, 0, []⟩ 10 = ⟨0, 1, LastPlayed.day 10, 0, []⟩ ∧
    update_streak ⟨0, 3, LastPlayed.day 10, 0, []⟩ 10 = ⟨0, 3, LastPlayed.day 10, 0, []⟩ := by
  refine ⟨?_, ?_, ?_⟩
  · exact (update_streak_spec ⟨0, 3, LastPlayed.day 9, 0, []⟩ 10).1 rfl
  · exact (update_streak_spec ⟨0, 3, LastPlayed.day 7, 0, []⟩ 10).2.2.1 7 rfl (by decide)
  · exact (update_streak_spec ⟨0, 3, LastPlayed.day 10, 0, []⟩ 10).2.2.2.1 rfl

/-! ### Best speed score -/

/-- Claim C7: the end-of-round update writes the round score into
`best_speed` exactly when it strictly exceeds the stored best and leaves
the document untouched otherwise; hence `best_speed` never decreases over
any sequence of rounds, and a score of 0 never overwrites a nonzero
best. -/
theorem best_speed_spec (p : Progress) (score : ℕ) :
    (p.bestSpeed < score → (speedFinish p score).bestSpeed = score) ∧
    (¬ p.bestSpeed < score → speedFinish p score = p) ∧
    p.bestSpeed ≤ (speedFinish p score).bestSpeed ∧
    (∀ scores : List ℕ, p.bestSpeed ≤ (scores.foldl speedFinish p).bestSpeed) ∧
    (0 < p.bestSpeed → speedFinish p 0 = p) := by
  have hmain : ∀ (q : Progress) (s : ℕ), q.bestSpeed ≤ (speedFinish q s).bestSpeed := by
    intro q s
    unfold speedFinish
    split_ifs with h
    · exact le_of_lt h
    · exact le_refl _
  refine ⟨?_, ?_, hmain p score, ?_, ?_⟩
  · intro h; simp [speedFinish, h]
  · intro h; simp [speedFinish, h]
  · intro scores
    induction scores generalizing p with
    | nil => exact le_refl _
    | cons s rest ih => exact le_trans (hmain p s) (ih (speedFinish p s))
  · intro h
    have : ¬ p.bestSpeed < 0 := by omega
    simp [speedFinish, this]

/-- Witness for C7: a best of 3 is beaten by 5, not overwritten by 0, and
a round sequence scoring 5 then 2 leaves a best of 5. -/
theorem best_speed_spec_witness :
    (speedFinish ⟨0, 0, LastPlayed.empty, 3, []⟩ 5).bestSpeed = 5 ∧
    speedFinish ⟨0, 0, LastPlayed.empty, 3, []⟩ 0 = ⟨0, 0, LastPlayed.empty, 3, []⟩ ∧
    (3 : ℕ) ≤ (([5, 2] : List ℕ).foldl speedFinish ⟨0, 0, LastPlayed.empty, 3, []⟩).bestSpeed := by
  refine ⟨?_, ?_, ?_⟩
  · exact (best_speed_spec ⟨0, 0, LastPlayed.empty, 3, []⟩ 5).1 (by decide)
  · exact (best_speed_spec ⟨0, 0, LastPlayed.empty, 3, []⟩ 0).2.2.2.2 (by decide)
  · exact (best_speed_spec ⟨0, 0, LastPlayed.empty, 3, []⟩ 5).2.2.2.1 [5, 2]

/-! ### Undersized word lists decline to run -/

/-- Claim C8: with fewer than two words, quiz mode and speed mode return
to the caller immediately: zero questions asked, zero saves, and the
progress document — xp, mastery records and best speed included — exactly
as it was. -/
theorem undersized_modes_spec (p : Progress) (category : String) (words : List WordEntry)
    (draws : ℕ → ℕ) (shuffleIdx : List ℕ → List ℕ) (σ : ℕ → List String → List String)
    (ans : ℕ → ℕ) (inp : SpeedInputs) (fuel : ℕ) (h : words.length < 2) :
    quizMode p category words draws shuffleIdx σ ans = (p, 0, 0) ∧
    speedRound p category words inp fuel = (p, 0, 0) := by
  constructor
  · unfold quizMode
    rw [if_pos h]
  · unfold speedRound
    rw [if_pos h]

/-- Witness for C8 on a one-word list and arbitrary concrete inputs. -/
theorem undersized_modes_spec_witness :
    quizMode ⟨7, 1, LastPlayed.empty, 2, []⟩ "verbs" [⟨"gehen", "to go"⟩]
        (fun _ => 0) id (fun _ l => l) (fun _ => 0) = (⟨7, 1, LastPlayed.empty, 2, []⟩, 0, 0) ∧
    speedRound ⟨7, 1, LastPlayed.empty, 2, []⟩ "verbs" [⟨"gehen", "to go"⟩]
        ⟨fun _ => false, fun _ => false, fun _ => false, fun _ => 0, fun _ => false,
          fun _ l => l, fun _ => none⟩ 60 = (⟨7, 1, LastPlayed.empty, 2, []⟩, 0, 0) :=
  undersized_modes_spec ⟨7, 1, LastPlayed.empty, 2, []⟩ "verbs" [⟨"gehen", "to go"⟩]
    (fun _ => 0) id (fun _ l => l) (fun _ => 0)
    ⟨fun _ => false, fun _ => false, fun _ => false, fun _ => 0, fun _ => false,
      fun _ l => l, fun _ => none⟩ 60 (by decide)

/-! ### Learned words and completion -/

theorem sum_map_ite_eq_length_filter (l : List WordEntry) (q : WordEntry → Prop)
    [DecidablePred q] :
    (l.map (fun a => if q a then (1 : ℕ) else 0)).sum
      = (l.filter (fun a => decide (q a))).length := by
  induction l with
  | nil => simp
  | cons a rest ih =>
      by_cases h : q a
      · simp [h, ih]
        omega
      · simp [h, ih]

theorem sum_map_ite_eq_length_filter_rec (l : List (String × MasteryRecord))
    (q : String × MasteryRecord → Prop) [DecidablePred q] :
    (l.map (fun a => if q a then (1 : ℕ) else 0)).sum
      = (l.filter (fun a => decide (q a))).length := by
  induction l with
  | nil => simp
  | cons a rest ih =>
      by_cases h : q a
      · simp [h, ih]
        omega
      · simp [h, ih]

/-- Claim C10: a word is "learned" exactly when its mastery is at least 3:
`words_learned_count` is the number of stored records with mastery ≥ 3,
and `category_completion` is the fraction of the category's words with
mastery ≥ 3 (and 0 for an empty word list). -/
theorem learned_count_spec (p : Progress) (category : String) (words : List WordEntry) :
    words_learned_count p = (p.words.filter (fun kv => decide (3 ≤ kv.2.mastery))).length ∧
    (words ≠ [] →
      category_completion p category words
        = ((words.filter (fun w => decide (3 ≤ get_mastery p category w.de))).length : ℚ) /
            (words.length : ℚ)) ∧
    category_completion p category [] = 0 := by
  refine ⟨?_, ?_, ?_⟩
  · unfold words_learned_count
    exact sum_map_ite_eq_length_filter_rec p.words (fun kv => 3 ≤ kv.2.mastery)
  · intro hw
    unfold category_completion
    rw [if_neg hw, sum_map_ite_eq_length_filter words (fun w => 3 ≤ get_mastery p category w.de)]
  · simp [category_completion]

/-- Witness for C10: a store holding masteries 3 and 1 counts one learned
word, and a two-word category with one learned word is half complete. -/
theorem learned_count_spec_witness :
    words_learned_count ⟨0, 0, LastPlayed.empty, 0,
        [("verbs:gehen", ⟨3, 3, 0⟩), ("verbs:sein", ⟨1, 1, 2⟩)]⟩ = 1 ∧
    category_completion ⟨0, 0, LastPlayed.empty, 0,
        [("verbs:gehen", ⟨3, 3, 0⟩), ("verbs:sein", ⟨1, 1, 2⟩)]⟩ "verbs"
        [⟨"gehen", "to go"⟩, ⟨"sein", "to be"⟩] = (1 : ℚ) / 2 := by
  constructor
  · rw [(learned_count_spec ⟨0, 0, LastPlayed.empty, 0,
        [("verbs:gehen", ⟨3, 3, 0⟩), ("verbs:sein", ⟨1, 1, 2⟩)]⟩ "verbs" []).1]
    decide
  · rw [(learned_count_spec ⟨0, 0, LastPlayed.empty, 0,
        [("verbs:gehen", ⟨3, 3, 0⟩), ("verbs:sein", ⟨1, 1, 2⟩)]⟩ "verbs"
        [⟨"gehen", "to go"⟩, ⟨"sein", "to be"⟩]).2.1 (by decide)]
    have hlen : (List.filter (fun w : WordEntry => decide (3 ≤ get_mastery
        ⟨0, 0, LastPlayed.empty, 0, [("verbs:gehen", ⟨3, 3, 0⟩), ("verbs:sein", ⟨1, 1, 2⟩)]⟩
        "verbs" w.de)) ([⟨"gehen", "to go"⟩, ⟨"sein", "to be"⟩] : List WordEntry)).length = 1 := by
      decide
    rw [hlen]
    norm_num

/-! ### Multiple-choice builder -/

theorem mem_padLoopRev {x : String} :
    ∀ {l choices : List String}, x ∈ padLoopRev choices l → x ∈ choices ∨ x ∈ l := by
  intro l
  induction l with
  | nil => intro choices h; exact Or.inl h
  | cons a rest ih =>
      intro choices h
      simp only [padLoopRev] at h
      by_cases hl : choices.length < 4
      · rw [if_pos hl] at h
        rcases ih h with h' | h'
        · rcases List.mem_append.mp h' with h'' | h''
          · exact Or.inl h''
          · simp only [List.mem_singleton] at h''
            subst h''
            exact Or.inr (List.mem_cons_self _ _)
        · exact Or.inr (List.mem_cons_of_mem _ h')
      · rw [if_neg hl] at h
        exact Or.inl h

theorem count_padLoopRev {a : String} :
    ∀ {l choices : List String}, (∀ x ∈ l, x ≠ a) →
      (padLoopRev choices l).count a = choices.count a := by
  intro l
  induction l with
  | nil => intro choices _; rfl
  | cons b rest ih =>
      intro choices h
      simp only [padLoopRev]
      by_cases hl : choices.length < 4
      · rw [if_pos hl, ih (fun x hx => h x (List.mem_cons_of_mem _ hx)),
          List.count_append]
        have hb : b ≠ a := h b (List.mem_cons_self _ _)
        simp [List.count_singleton, hb]
      · rw [if_neg hl]

theorem padLoopRev_of_length_ge {choices : List String} (h : 4 ≤ choices.length) :
    ∀ l : List String, padLoopRev choices l = choices := by
  intro l
  cases l with
  | nil => rfl
  | cons b rest => simp [padLoopRev, Nat.not_lt.mpr h]

theorem buildFixed_spec (correctAnswer : String) (wrongPool : List String)
    (hwp : ∀ x ∈ wrongPool, x ≠ correctAnswer) :
    (buildFixed correctAnswer wrongPool).count correctAnswer = 1 ∧
      (∀ x ∈ buildFixed correctAnswer wrongPool, x = correctAnswer ∨ x ∈ wrongPool) ∧
      (wrongPool.Nodup → 3 ≤ wrongPool.length →
        (buildFixed correctAnswer wrongPool).length = 4 ∧
          (buildFixed correctAnswer wrongPool).Nodup) := by
  have hunf : buildFixed correctAnswer wrongPool
      = if (padLoopRev (correctAnswer :: wrongPool.take 3) wrongPool.reverse).length < 2
        then ((padLoopRev (correctAnswer :: wrongPool.take 3) wrongPool.reverse)
          ++ [correctAnswer]).dedup
        else padLoopRev (correctAnswer :: wrongPool.take 3) wrongPool.reverse := rfl
  have hrev_ne : ∀ x ∈ wrongPool.reverse, x ≠ correctAnswer :=
    fun x hx => hwp x (List.mem_reverse.mp hx)
  have htake_ne : ∀ x ∈ wrongPool.take 3, x ≠ correctAnswer :=
    fun x hx => hwp x (List.mem_of_mem_take hx)
  have hcount : (padLoopRev (correctAnswer :: wrongPool.take 3) wrongPool.reverse).count
      correctAnswer = 1 := by
    rw [count_padLoopRev hrev_ne, List.count_cons_self]
    have : (wrongPool.take 3).count correctAnswer = 0 :=
      List.count_eq_zero.mpr (fun hmem => htake_ne _ hmem rfl)
    omega
  have hmem_padded : ∀ x ∈ padLoopRev (correctAnswer :: wrongPool.take 3) wrongPool.reverse,
      x = correctAnswer ∨ x ∈ wrongPool := by
    intro x hx
    rcases mem_padLoopRev hx with h | h
    · rcases List.mem_cons.mp h with h' | h'
      · exact Or.inl h'
      · exact Or.inr (List.mem_of_mem_take h')
    · exact Or.inr (List.mem_reverse.mp h)
  rw [hunf]
  by_cases hp : (padLoopRev (correctAnswer :: wrongPool.take 3) wrongPool.reverse).length < 2
  · rw [if_pos hp]
    refine ⟨?_, ?_, ?_⟩
    · exact List.count_eq_one_of_mem (List.nodup_dedup _)
        (List.mem_dedup.mpr (List.mem_append.mpr (Or.inr (List.mem_singleton.mpr rfl))))
    · intro x hx
      rcases List.mem_append.mp (List.mem_dedup.mp hx) with h | h
      · exact hmem_padded x h
      · simp only [List.mem_singleton] at h
        exact Or.inl h
    · intro _ h3
      exfalso
      have h4 : 4 ≤ (correctAnswer :: wrongPool.take 3).length := by
        simp only [List.length_cons, List.length_take]
        omega
      rw [padLoopRev_of_length_ge h4] at hp
      omega
  · rw [if_neg hp]
    refine ⟨hcount, hmem_padded, ?_⟩
    intro hnd h3
    have h4 : 4 ≤ (correctAnswer :: wrongPool.take 3).length := by
      simp only [List.length_cons, List.length_take]
      omega
    rw [padLoopRev_of_length_ge h4]
    constructor
    · simp only [List.length_cons, List.length_take]
      omega
    · rw [List.nodup_cons]
      refine ⟨fun hmem => htake_ne _ hmem rfl, ?_⟩
      exact hnd.sublist (List.take_sublist _ _)

/-- Counterexample to claim C4: with correct answer "Hund" and the
duplicate-free two-alternative pool \x7b"Katze", "Vogel"\x7d, the pad loop
re-appends "Vogel", which `wrong_pool[:3]` had already contributed, so the
built choice set is ["Hund", "Katze", "Vogel", "Vogel"] — its
alternatives are not pairwise distinct. -/
theorem build_choices_counterexample :
    buildChoices "Hund" ["Katze", "Vogel"] id id = ["Hund", "Katze", "Vogel", "Vogel"] ∧
      ¬ (buildChoices "Hund" ["Katze", "Vogel"] id id).Nodup :=
  ⟨by decide, by decide⟩

/-- Claim C4 as amended: the built choice set always contains the correct
answer exactly once and draws every other entry from the pool excluding
values equal to the correct answer; when the pool holds at least 3
distinct alternatives and no duplicates, the result has exactly 4
pairwise-distinct entries.  (For pools of only 1 or 2 alternatives the
pad loop re-appends an alternative already taken by the 3-slice, so the
alternatives need not be distinct.) -/
theorem build_choices_spec (correctAnswer : String) (values : List String)
    (σ₁ σ₂ : List String → List String)
    (h₁ : ∀ l : List String, (σ₁ l).Perm l) (h₂ : ∀ l : List String, (σ₂ l).Perm l) :
    (buildChoices correctAnswer values σ₁ σ₂).count correctAnswer = 1 ∧
      (∀ x ∈ buildChoices correctAnswer values σ₁ σ₂, x ≠ correctAnswer → x ∈ values) ∧
      ((values.filter (fun v => decide (v ≠ correctAnswer))).Nodup →
        3 ≤ (values.filter (fun v => decide (v ≠ correctAnswer))).length →
        (buildChoices correctAnswer values σ₁ σ₂).length = 4 ∧
          (buildChoices correctAnswer values σ₁ σ₂).Nodup) := by
  have hwp : ∀ x ∈ σ₁ (values.filter (fun v => decide (v ≠ correctAnswer))),
      x ≠ correctAnswer := by
    intro x hx
    have := (h₁ _).mem_iff.mp hx
    rw [List.mem_filter, decide_eq_true_eq] at this
    exact this.2
  obtain ⟨hcount, hmem, hbig⟩ := buildFixed_spec correctAnswer
    (σ₁ (values.filter (fun v => decide (v ≠ correctAnswer)))) hwp
  have hperm := h₂ (buildFixed correctAnswer
    (σ₁ (values.filter (fun v => decide (v ≠ correctAnswer)))))
  unfold buildChoices
  refine ⟨?_, ?_, ?_⟩
  · rw [hperm.count_eq]
    exact hcount
  · intro x hx hne
    rcases hmem x (hperm.mem_iff.mp hx) with h | h
    · exact absurd h hne
    · have := (h₁ _).mem_iff.mp h
      rw [List.mem_filter] at this
      exact this.1
  · intro hnd h3
    obtain ⟨hl4, hnd4⟩ := hbig ((h₁ _).nodup_iff.mpr hnd) (by rw [(h₁ _).length_eq]; exact h3)
    exact ⟨by rw [hperm.length_eq]; exact hl4, hperm.nodup_iff.mpr hnd4⟩

/-- Witness for C4 (amended) at the spec's own example: correct answer
"Hund" with pool \x7b"Katze", "Vogel", "Fisch", "Maus"\x7d gives 4 distinct
entries containing "Hund" exactly once. -/
theorem build_choices_spec_witness :
    (buildChoices "Hund" ["Katze", "Vogel", "Fisch", "Maus"] id id).length = 4 ∧
      (buildChoices "Hund" ["Katze", "Vogel", "Fisch", "Maus"] id id).Nodup ∧
      (buildChoices "Hund" ["Katze", "Vogel", "Fisch", "Maus"] id id).count "Hund" = 1 := by
  have h := build_choices_spec "Hund" ["Katze", "Vogel", "Fisch", "Maus"] id id
    (fun l => List.Perm.refl l) (fun l => List.Perm.refl l)
  have h3 := h.2.2 (by decide) (by decide)
  exact ⟨h3.1, h3.2, h.1⟩

/-! ### Quiz scoring -/

theorem scoreQuizAnswer_saves (p : Progress) (category : String) (w : WordEntry)
    (selected correctAnswer : String) :
    (scoreQuizAnswer p category w selected correctAnswer).2.2 = 1 := by
  unfold scoreQuizAnswer
  split_ifs <;> rfl

theorem get_mastery_record_answer (p : Progress) (category de : String) (b : Bool) :
    get_mastery (record_answer p category de b) category de
      = if b then min (get_mastery p category de + 1) 5
        else max (get_mastery p category de - 1) 0 := by
  unfold get_mastery
  rw [lookup_record_answer]
  cases b <;> simp [applyAnswer]

theorem quizLoop_saves (category : String) (words : List WordEntry)
    (σ : ℕ → List String → List String) (ans : ℕ → ℕ) (qs : List WordEntry) :
    ∀ (qi : ℕ) (p : Progress) (score saves : ℕ),
      (quizLoop category words σ ans qs qi p score saves).2.2 = saves + qs.length := by
  induction qs with
  | nil => intro qi p score saves; rfl
  | cons w rest ih =>
      intro qi p score saves
      simp only [quizLoop]
      rw [ih, scoreQuizAnswer_saves]
      simp only [List.length_cons]
      omega

/-- Claim C6: in quiz mode, a correctly answered question adds exactly 10
xp and raises the word's mastery to `min(m + 1, 5)` (so from 0 to 1 for a
fresh word), and the progress document is saved exactly once per answered
question, correct or wrong — over a whole question batch, the number of
saves equals the number of questions. -/
theorem quiz_scoring_spec (p : Progress) (category : String) (w : WordEntry)
    (selected correctAnswer : String) :
    (selected = correctAnswer →
      (scoreQuizAnswer p category w selected correctAnswer).1.xp = p.xp + 10 ∧
      get_mastery (scoreQuizAnswer p category w selected correctAnswer).1 category w.de
        = min (get_mastery p category w.de + 1) 5 ∧
      (scoreQuizAnswer p category w selected correctAnswer).2.2 = 1) ∧
    (scoreQuizAnswer p category w selected correctAnswer).2.2 = 1 ∧
    (∀ (words qs : List WordEntry) (σ : ℕ → List String → List String) (ans : ℕ → ℕ)
        (qi : ℕ) (q : Progress) (score saves : ℕ),
      (quizLoop category words σ ans qs qi q score saves).2.2 = saves + qs.length) := by
  refine ⟨?_, scoreQuizAnswer_saves p category w selected correctAnswer,
    fun words qs σ ans qi q score saves => quizLoop_saves category words σ ans qs qi q score saves⟩
  intro hsel
  unfold scoreQuizAnswer
  rw [if_pos hsel]
  refine ⟨rfl, ?_, rfl⟩
  have hx : get_mastery
      { record_answer p category w.de true with
        xp := (record_answer p category w.de true).xp + 10 } category w.de
      = get_mastery (record_answer p category w.de true) category w.de := rfl
  rw [hx, get_mastery_record_answer]
  simp

/-- Witness for C6: answering "gehen" correctly on a fresh document gives
10 xp, mastery 1, and one save. -/
theorem quiz_scoring_spec_witness :
    (scoreQuizAnswer ⟨0, 0, LastPlayed.empty, 0, []⟩ "verbs" ⟨"gehen", "to go"⟩
        "gehen" "gehen").1.xp = 10 ∧
      get_mastery (scoreQuizAnswer ⟨0, 0, LastPlayed.empty, 0, []⟩ "verbs"
        ⟨"gehen", "to go"⟩ "gehen" "gehen").1 "verbs" "gehen" = 1 ∧
      (scoreQuizAnswer ⟨0, 0, LastPlayed.empty, 0, []⟩ "verbs" ⟨"gehen", "to go"⟩
        "gehen" "gehen").2.2 = 1 := by
  have h := (quiz_scoring_spec ⟨0, 0, LastPlayed.empty, 0, []⟩ "verbs" ⟨"gehen", "to go"⟩
    "gehen" "gehen").1 rfl
  exact ⟨h.1.trans (by decide), h.2.1.trans (by decide), h.2.2⟩

end DeutschLernen
